import Mathlib

/-!
Verification of the question-bank importer (`import_questions.py` and the
verbatim copy of its parser/upsert logic in `web_app.py`).

Text is modelled as `List Char`.  Python's `str.strip` / `re.sub(r"\s+", " ", ·)`
act on whitespace; the inputs in scope are ASCII-plus-CJK transcripts, so the
whitespace class is modelled as the ASCII whitespace characters (which is what
occurs in the transcripts; note that U+FEFF is *not* whitespace in Python
either, which matters for the BOM analysis below).
-/

/-- ASCII whitespace, matching Python's `str.strip` / `\s` on the inputs in scope. -/
def isWs (c : Char) : Bool :=
  c = ' ' || c = '\t' || c = '\n' || c = '\r' || c = '\x0b' || c = '\x0c'

/-- Python `s.lstrip()`: drop leading whitespace. -/
def lstrip (s : List Char) : List Char := s.dropWhile isWs

/-- Python `s.rstrip()`: drop trailing whitespace (structural formulation). -/
def rstrip : List Char → List Char
  | [] => []
  | c :: cs =>
    let r := rstrip cs
    if r.isEmpty then (if isWs c then [] else [c]) else c :: r

/-- Python `s.strip()`: drop whitespace at both ends. -/
def strip (s : List Char) : List Char := rstrip (lstrip s)

/-- `startsWith s p` is Python's `s.startswith(p)`. -/
def startsWith : List Char → List Char → Bool
  | _, [] => true
  | [], _ :: _ => false
  | c :: cs, p :: ps => c = p && startsWith cs ps

/-- The four literal field markers of the transcript format. -/
def LABEL_Q : List Char := "題目：".data

def LABEL_YOUR : List Char := "你的答案：".data

def LABEL_CORRECT : List Char := "正確答案：".data

def LABEL_SCORE : List Char := "得分：".data

/-- The sentinel recorded when a question was left unanswered. -/
def SENTINEL : List Char := "未作答".data

/-- A transient parsed entry: `{"question": q, "your": [...], "correct": [...]}`. -/
structure Entry where
  question : List Char
  your : List (List Char)
  correct : List (List Char)
deriving DecidableEq, Repr

/-- Python's `text.splitlines()` restricted to `'\n'` separators (the transcripts
are line-ending normalized; the subsequent `rstrip("\n")` in the source is a
no-op on such lines and is therefore not modelled separately). -/
def splitOnNl : List Char → List (List Char)
  | [] => [[]]
  | c :: cs =>
    if c = '\n' then [] :: splitOnNl cs
    else
      match splitOnNl cs with
      | [] => [[c]]
      | l :: ls => (c :: l) :: ls

/-- Python `splitlines`: no trailing empty line for text ending in a newline,
and `""` splits to no lines at all. -/
def splitlines (s : List Char) : List (List Char) :=
  if s.isEmpty then []
  else
    let parts := splitOnNl s
    if parts.getLast? = some [] then parts.dropLast else parts

/-- Parser mode: scanning, or consuming the multi-line continuation of a
your-answer / correct-answer field (carrying the answers collected so far).
This is the inner `while` loop of `parse_blocks` turned into a state machine
that consumes exactly one line per step; a boundary line is not consumed by the
collection and is re-examined by the outer scan, exactly as in the source. -/
inductive PMode where
  | scan : PMode
  | collectYour : List (List Char) → PMode
  | collectCorrect : List (List Char) → PMode
deriving DecidableEq, Repr

/-- `flushList cur` : the entries appended by `flush()`. -/
def flushList : Option Entry → List Entry
  | none => []
  | some e => [e]

/-- `cur["your"] = answers` (the open entry is never `None` when this runs). -/
def setYour (cur : Option Entry) (ans : List (List Char)) : Option Entry :=
  cur.map fun e => { e with your := ans }

/-- `cur["correct"] = answers`. -/
def setCorrect (cur : Option Entry) (ans : List (List Char)) : Option Entry :=
  cur.map fun e => { e with correct := ans }

/-- One outer-scan step of `parse_blocks` on a single line: start a new entry on
a question-marker, enter a collection mode on a your-answer or correct-answer
marker (only while an entry is open), otherwise ignore the line. -/
def scanLine (line : List Char) (cur : Option Entry) (acc : List Entry) :
    PMode × Option Entry × List Entry :=
  let l := strip line
  if startsWith l LABEL_Q then
    (PMode.scan, some ⟨strip (l.drop LABEL_Q.length), [], []⟩, acc ++ flushList cur)
  else if startsWith l LABEL_YOUR && cur.isSome then
    let rest := strip (l.drop LABEL_YOUR.length)
    (PMode.collectYour (if rest.isEmpty then [] else [rest]), cur, acc)
  else if startsWith l LABEL_CORRECT && cur.isSome then
    let rest := strip (l.drop LABEL_CORRECT.length)
    (PMode.collectCorrect (if rest.isEmpty then [] else [rest]), cur, acc)
  else
    (PMode.scan, cur, acc)

/-- Commit a pending collection into the open entry (done when the inner loop
of the source exits, at a boundary line or at end of input). -/
def commitMode (m : PMode) (cur : Option Entry) : Option Entry :=
  match m with
  | PMode.scan => cur
  | PMode.collectYour ans => setYour cur ans
  | PMode.collectCorrect ans => setCorrect cur ans

/-- The main loop of `parse_blocks`, one line per step. -/
def parseLines : List (List Char) → PMode → Option Entry → List Entry → List Entry
  | [], m, cur, acc => acc ++ flushList (commitMode m cur)
  | line :: rest, PMode.scan, cur, acc =>
    match scanLine line cur acc with
    | (m', cur', acc') => parseLines rest m' cur' acc'
  | line :: rest, PMode.collectYour ans, cur, acc =>
    let peek := strip line
    if startsWith peek LABEL_CORRECT || startsWith peek LABEL_Q ||
        startsWith peek LABEL_SCORE then
      match scanLine line (setYour cur ans) acc with
      | (m', cur', acc') => parseLines rest m' cur' acc'
    else if peek.isEmpty then parseLines rest (PMode.collectYour ans) cur acc
    else parseLines rest (PMode.collectYour (ans ++ [peek])) cur acc
  | line :: rest, PMode.collectCorrect ans, cur, acc =>
    let peek := strip line
    if startsWith peek LABEL_Q || startsWith peek LABEL_SCORE ||
        startsWith peek LABEL_YOUR then
      match scanLine line (setCorrect cur ans) acc with
      | (m', cur', acc') => parseLines rest m' cur' acc'
    else if peek.isEmpty then parseLines rest (PMode.collectCorrect ans) cur acc
    else parseLines rest (PMode.collectCorrect (ans ++ [peek])) cur acc

/-- `parse_blocks(text)`: parse the loose Q/A transcript format. -/
def parse_blocks (text : List Char) : List Entry :=
  parseLines (splitlines text) PMode.scan none []

/-- `re.sub(r"\s+", " ", ·)`: collapse every maximal whitespace run to one
space (a whitespace character is dropped while the run continues and becomes
the single `' '` at the run's last character; structurally recursive so that
it evaluates in the kernel). -/
def collapseWs : List Char → List Char
  | [] => []
  | [c] => if isWs c then [' '] else [c]
  | c :: d :: cs =>
    if isWs c then
      if isWs d then collapseWs (d :: cs) else ' ' :: collapseWs (d :: cs)
    else c :: collapseWs (d :: cs)

/-- `normalize_text(s)`: trim and collapse all whitespace to single spaces for dedup. -/
def normalize_text (s : List Char) : List Char := collapseWs (strip s)

/-- ASCII decimal digit. -/
def isDigit (c : Char) : Bool := '0' ≤ c && c ≤ '9'

/-- `re.search(r"\[__\d+__\]", ·)` matched at the head of `s`: `[__`, one or
more digits, `__]`.  Digits and `_` are disjoint, so the regex matches at this
position iff the maximal digit run after `[__` is nonempty and is followed by
`__]`. -/
def slotHere (s : List Char) : Bool :=
  startsWith s "[__".data &&
  (let t := s.drop 3
   !(t.takeWhile isDigit).isEmpty && startsWith (t.dropWhile isDigit) "__]".data)

/-- Does the blank-slot pattern `[__N__]` occur anywhere in `s`? -/
def containsSlot : List Char → Bool
  | [] => false
  | c :: cs => slotHere (c :: cs) || containsSlot cs

/-- `detect_type(question)`: 填空題 if the text contains `[__N__]`, else 選擇題. -/
def detect_type (question : List Char) : List Char :=
  if containsSlot question then "填空題".data else "選擇題".data

/-- Word character for `\b` in `re.search(r"\bch(\d{1,2})\b", ·)`:
letters, digits, underscore (the path segments in scope are ASCII). -/
def wordChar (c : Char) : Bool := c.isAlpha || isDigit c || c = '_'

/-- Digit value of an ASCII digit character. -/
def digitVal (c : Char) : Nat := c.toNat - 48

/-- No word character follows, i.e. `\b` holds between the previous character
and this suffix. -/
def boundaryAfter : List Char → Bool
  | [] => true
  | c :: _ => !wordChar c

/-- Try the (case-insensitive) pattern `ch(\d{1,2})\b` at the head of `s`,
returning the captured number; `\d{1,2}` is greedy with backtracking into the
trailing `\b`. -/
def tryChAt : List Char → Option Nat
  | c :: h :: rest =>
    if (c = 'c' || c = 'C') && (h = 'h' || h = 'H') then
      match rest with
      | d1 :: d2 :: rest2 =>
        if isDigit d1 && isDigit d2 && boundaryAfter rest2 then
          some (10 * digitVal d1 + digitVal d2)
        else if isDigit d1 && boundaryAfter (d2 :: rest2) then
          some (digitVal d1)
        else none
      | [d1] => if isDigit d1 then some (digitVal d1) else none
      | [] => none
    else none
  | _ => none

/-- Leftmost match of `\bch(\d{1,2})\b` in a segment; `prevWord` records
whether the previous character was a word character (for the leading `\b`;
`c`/`C` is itself a word character, so the boundary holds exactly when the
previous character is not one, or at the start). -/
def searchCh (prevWord : Bool) : List Char → Option Nat
  | [] => none
  | c :: rest =>
    match (if prevWord then none else tryChAt (c :: rest)) with
    | some n => some n
    | none => searchCh (wordChar c) rest

/-- Decimal digits of `n < 100` (the captured number has 1–2 digits). -/
def natDigits (n : Nat) : List Char :=
  if n < 10 then [Char.ofNat (48 + n)]
  else [Char.ofNat (48 + n / 10), Char.ofNat (48 + n % 10)]

/-- `f"ch{n}"`. -/
def chTag (n : Nat) : List Char := 'c' :: 'h' :: natDigits n

/-- `"unknown"`. -/
def UNKNOWN : List Char := "unknown".data

/-- `fallback if fallback else "unknown"` (Python truthiness: an empty override
string also falls back to `"unknown"`). -/
def fallbackResult : Option (List Char) → List Char
  | some f => if f.isEmpty then UNKNOWN else f
  | none => UNKNOWN

/-- The segment loop of `determine_chapter`: per segment, `re.search` yields at
most the first match; if its value is in `[0,10]` return `"ch" + n`, otherwise
move to the next segment. -/
def chapterGo : List (List Char) → Option (List Char) → List Char
  | [], fb => fallbackResult fb
  | p :: ps, fb =>
    match searchCh false p with
    | some n => if n ≤ 10 then chTag n else chapterGo ps fb
    | none => chapterGo ps fb

/-- `determine_chapter(path, fallback)`: search `[path.stem] + path.parts[::-1]`
for `chN` (N in 0..10); else the fallback, else `"unknown"`.  A path is modelled
by its stem and its `parts` list (root to leaf). -/
def determine_chapter (stem : List Char) (parts : List (List Char))
    (fallback : Option (List Char)) : List Char :=
  chapterGo (stem :: parts.reverse) fallback


/-- A row of the `questions` table.  `created_at` stands for the
`CURRENT_TIMESTAMP` default (an abstract tick supplied per batch); it is set
at insertion and never touched afterwards. -/
structure QuestionRow where
  id : Nat
  chapter : List Char
  q_text : List Char
  q_text_norm : List Char
  q_type : List Char
  source_file : List Char
  created_at : Nat
deriving DecidableEq, Repr

/-- A row of the `answers` table. -/
structure AnswerRow where
  id : Nat
  question_id : Nat
  position : Nat
  answer_text : List Char
  created_at : Nat
deriving DecidableEq, Repr

/-- The SQLite database state: both tables in rowid order plus the
`AUTOINCREMENT` counters. -/
structure DB where
  questions : List QuestionRow
  answers : List AnswerRow
  nextQId : Nat
  nextAId : Nat
deriving DecidableEq, Repr

/-- A freshly created database (`AUTOINCREMENT` ids start at 1). -/
def emptyDB : DB := ⟨[], [], 1, 1⟩

/-- `SELECT id FROM questions WHERE chapter=? AND q_text_norm=?` (first row in
rowid order); also decides the `UNIQUE(chapter, q_text_norm)` conflict of the
`INSERT OR IGNORE`. -/
def findQuestion (qs : List QuestionRow) (chapter norm : List Char) :
    Option QuestionRow :=
  qs.find? fun r => r.chapter == chapter && r.q_text_norm == norm

/-- The `UNIQUE(question_id, position, answer_text)` conflict test for the
answers `INSERT OR IGNORE`. -/
def hasAnswer (as : List AnswerRow) (qid pos : Nat) (t : List Char) : Bool :=
  as.any fun a => a.question_id == qid && a.position == pos && a.answer_text == t

/-- The four batch statistics returned by the upsert engine. -/
structure Counters where
  inserted_questions : Nat
  duplicates_skipped : Nat
  skipped_unanswered : Nat
  inserted_answers : Nat
deriving DecidableEq, Repr

instance : Add Counters :=
  ⟨fun a b => ⟨a.inserted_questions + b.inserted_questions,
    a.duplicates_skipped + b.duplicates_skipped,
    a.skipped_unanswered + b.skipped_unanswered,
    a.inserted_answers + b.inserted_answers⟩⟩

/-- `[a.strip() for a in e.get("correct", []) if a.strip() != ""]`. -/
def surviving (e : Entry) : List (List Char) :=
  (e.correct.map strip).filter fun a => !a.isEmpty

/-- `len(correct) == 0 or (len(correct) == 1 and correct[0] == "未作答")`. -/
def isUnanswered : List (List Char) → Bool
  | [] => true
  | [a] => a == SENTINEL
  | _ :: _ :: _ => false

/-- The answers loop: `for idx, ans in enumerate(correct, start=1)`, with an
`INSERT OR IGNORE` per `(question_id, position, answer_text)`; returns the new
state and the number of genuinely inserted rows. -/
def insertAnswers (db : DB) (qid pos now : Nat) : List (List Char) → DB × Nat
  | [] => (db, 0)
  | a :: rest =>
    if hasAnswer db.answers qid pos a then insertAnswers db qid (pos + 1) now rest
    else
      let db' : DB := { db with
        answers := db.answers ++ [⟨db.nextAId, qid, pos, a, now⟩],
        nextAId := db.nextAId + 1 }
      let r := insertAnswers db' qid (pos + 1) now rest
      (r.1, r.2 + 1)

/-- The per-entry body of `upsert_entries`, returning the new state and this
entry's counter increments.  The source's `if not row: …` fallback after a
conflicting insert is dead in single-writer execution (a conflict means the
matching row exists) and is represented by the `some`-branch lookup. -/
def processEntry (db : DB) (chapter source : List Char) (now : Nat) (e : Entry) :
    DB × Counters :=
  let correct := surviving e
  if isUnanswered correct then (db, ⟨0, 0, 1, 0⟩)
  else
    let q := strip e.question
    let q_norm := normalize_text q
    let q_type := detect_type q
    match findQuestion db.questions chapter q_norm with
    | none =>
      let row : QuestionRow := ⟨db.nextQId, chapter, q, q_norm, q_type, source, now⟩
      let db' : DB := { db with
        questions := db.questions ++ [row], nextQId := db.nextQId + 1 }
      let res := insertAnswers db' row.id 1 now correct
      (res.1, ⟨1, 0, 0, res.2⟩)
    | some r =>
      let res := insertAnswers db r.id 1 now correct
      (res.1, ⟨0, 1, 0, res.2⟩)

/-- The entry loop of `upsert_entries`; counter increments are summed. -/
def upsertGo (chapter source : List Char) (now : Nat) :
    DB → List Entry → DB × Counters
  | db, [] => (db, ⟨0, 0, 0, 0⟩)
  | db, e :: rest =>
    let p := processEntry db chapter source now e
    let q := upsertGo chapter source now p.1 rest
    (q.1, p.2 + q.2)

/-- `upsert_entries(db, entries, chapter, source_file)`: the idempotent upsert
engine.  `now` is the batch timestamp for the `created_at` defaults. -/
def upsert_entries (db : DB) (entries : List Entry) (chapter source : List Char)
    (now : Nat) : DB × Counters :=
  upsertGo chapter source now db entries

/-- `import_questions_from_entries` in `web_app.py` is a line-for-line copy of
`upsert_entries` (same filter, same SQL, same counters), so it is modelled by
the same function. -/
def import_questions_from_entries (db : DB) (entries : List Entry)
    (chapter source : List Char) (now : Nat) : DB × Counters :=
  upsert_entries db entries chapter source now

/-- The U+FEFF byte-order-mark character. -/
def BOM : Char := '﻿'

/-- `bytes.decode("utf-8-sig")` at character level: one leading BOM, when
present, is removed.  This is the decode used by the web upload route. -/
def decode_utf8_sig (s : List Char) : List Char :=
  if s.head? = some BOM then s.tail else s

/-- `Path.read_text(encoding="utf-8", errors="ignore")` at character level for
well-formed UTF-8 input: the identity — in particular a leading BOM decodes to
U+FEFF and is kept.  This is the decode used by the command-line route
(`main`, `--encoding` defaulting to `utf-8`). -/
def read_text_utf8 (s : List Char) : List Char := s

/-- All of `texts`, positioned `pos, pos+1, …`, already have matching rows for
question `qid` in `as`. -/
def allAnswersPresent (as : List AnswerRow) (qid pos : Nat) :
    List (List Char) → Bool
  | [] => true
  | a :: rest => hasAnswer as qid pos a && allAnswersPresent as qid (pos + 1) rest

/-- The answer rows created for question `qid` from `texts`, ids from `aid`,
positions from `pos`: position `pos + i` holds the `i`-th text, in order. -/
def mkAnswers (qid aid pos now : Nat) : List (List Char) → List AnswerRow
  | [] => []
  | a :: rest => ⟨aid, qid, pos, a, now⟩ :: mkAnswers qid (aid + 1) (pos + 1) now rest

/-- The store already holds everything entry `e` would insert into `chapter`:
either `e` is filtered out, or its question row exists and — for the id the
engine would resolve — every positioned answer row exists. -/
def saturated (db : DB) (chapter : List Char) (e : Entry) : Prop :=
  isUnanswered (surviving e) = true ∨
  ∃ r, findQuestion db.questions chapter (normalize_text (strip e.question)) = some r ∧
    allAnswersPresent db.answers r.id 1 (surviving e) = true

/-- Well-formed store: ids already assigned are below the `AUTOINCREMENT`
counter (true of every store the engine itself builds). -/
def WF (db : DB) : Prop :=
  (∀ q ∈ db.questions, q.id < db.nextQId) ∧
  (∀ a ∈ db.answers, a.question_id < db.nextQId)

/-- The maximal non-whitespace words of a text, in order: two texts differ
only in whitespace and line-break layout exactly when their word lists agree. -/
def wordsOf : List Char → List (List Char)
  | [] => []
  | c :: cs =>
    if isWs c then wordsOf cs
    else
      match cs with
      | [] => [[c]]
      | d :: _ =>
        if isWs d then [c] :: wordsOf cs
        else
          match wordsOf cs with
          | [] => [[c]]
          | w :: ws => (c :: w) :: ws

/-- Join words with single spaces. -/
def joinSp : List (List Char) → List Char
  | [] => []
  | [w] => w
  | w :: ws => w ++ ' ' :: joinSp ws

/-- Two entries that agree on the question and the correct answers (the
`yourAnswers` may differ arbitrarily). -/
def EntryAgrees (a b : Entry) : Prop :=
  a.question = b.question ∧ a.correct = b.correct

/-- The worked example of §8 of the specification. -/
def exampleText : List Char :=
  "題目：作業系統的主要功能是？\n你的答案：A\n正確答案：A\n管理硬體資源\n\n題目：[__1__]是分頁機制\n正確答案：未作答".data

/-- C2: the worked example parses to exactly two entries in source order, the
first with correct answers `["A", "管理硬體資源"]`, the second filtered as
unanswered; upserting into an initially empty store returns counters
`inserted_questions = 1, duplicates_skipped = 0, skipped_unanswered = 1,
inserted_answers = 2`. -/
theorem end_to_end_example :
    parse_blocks exampleText =
      [⟨"作業系統的主要功能是？".data, ["A".data], ["A".data, "管理硬體資源".data]⟩,
       ⟨"[__1__]是分頁機制".data, [], ["未作答".data]⟩] ∧
    isUnanswered (surviving ⟨"[__1__]是分頁機制".data, [], ["未作答".data]⟩) = true ∧
    (upsert_entries emptyDB (parse_blocks exampleText) "ch1".data
      "midterm.txt".data 0).2 = ⟨1, 0, 1, 2⟩ := by
  decide

theorem hasAnswer_append (as bs : List AnswerRow) (qid pos : Nat) (t : List Char) :
    hasAnswer (as ++ bs) qid pos t = (hasAnswer as qid pos t || hasAnswer bs qid pos t) := by
  simp [hasAnswer, List.any_append]

theorem allAnswersPresent_append (as bs : List AnswerRow) (qid pos : Nat)
    (c : List (List Char)) (h : allAnswersPresent as qid pos c = true) :
    allAnswersPresent (as ++ bs) qid pos c = true := by
  induction c generalizing pos with
  | nil => rfl
  | cons a rest ih =>
    simp only [allAnswersPresent, Bool.and_eq_true] at h ⊢
    exact ⟨by rw [hasAnswer_append, h.1, Bool.true_or], ih _ h.2⟩

theorem findQuestion_append_some {qs : List QuestionRow} {ch k : List Char}
    {r : QuestionRow} (h : findQuestion qs ch k = some r) (more : List QuestionRow) :
    findQuestion (qs ++ more) ch k = some r := by
  simp only [findQuestion, List.find?_append] at h ⊢
  rw [h]; rfl

theorem findQuestion_append_none {qs : List QuestionRow} {ch k : List Char}
    (h : findQuestion qs ch k = none) (more : List QuestionRow) :
    findQuestion (qs ++ more) ch k = findQuestion more ch k := by
  simp only [findQuestion, List.find?_append] at h ⊢
  rw [h]; rfl

theorem insertAnswers_state (qid now : Nat) (c : List (List Char)) :
    ∀ (db : DB) (pos : Nat),
      (insertAnswers db qid pos now c).1.questions = db.questions ∧
      (insertAnswers db qid pos now c).1.nextQId = db.nextQId ∧
      ∃ as, (insertAnswers db qid pos now c).1.answers = db.answers ++ as ∧
        ∀ a ∈ as, a.question_id = qid := by
  induction c with
  | nil => exact fun db pos => ⟨rfl, rfl, [], by simp [insertAnswers], by simp⟩
  | cons a rest ih =>
    intro db pos
    simp only [insertAnswers]
    split
    · exact ih db (pos + 1)
    · obtain ⟨h1, h2, as, h3, h4⟩ := ih _ (pos + 1)
      refine ⟨h1, h2, ⟨db.nextAId, qid, pos, a, now⟩ :: as, ?_, ?_⟩
      · rw [h3]; simp
      · intro x hx
        rcases List.mem_cons.mp hx with hx | hx
        · subst hx; rfl
        · exact h4 x hx

theorem insertAnswers_present (qid now : Nat) (c : List (List Char)) :
    ∀ (db : DB) (pos : Nat),
      allAnswersPresent (insertAnswers db qid pos now c).1.answers qid pos c = true := by
  induction c with
  | nil => intro db pos; rfl
  | cons a rest ih =>
    intro db pos
    simp only [insertAnswers]
    split
    · rename_i hha
      simp only [allAnswersPresent, Bool.and_eq_true]
      obtain ⟨-, -, as, h3, -⟩ := insertAnswers_state qid now rest db (pos + 1)
      refine ⟨?_, ih db (pos + 1)⟩
      rw [h3, hasAnswer_append, hha, Bool.true_or]
    · simp only [allAnswersPresent, Bool.and_eq_true]
      obtain ⟨-, -, as, h3, -⟩ := insertAnswers_state qid now rest _ (pos + 1)
      refine ⟨?_, ih _ (pos + 1)⟩
      rw [h3, hasAnswer_append]
      have : hasAnswer
          (db.answers ++ [⟨db.nextAId, qid, pos, a, now⟩]) qid pos a = true := by
        rw [hasAnswer_append]
        simp [hasAnswer]
      rw [this, Bool.true_or]

theorem insertAnswers_noop (qid now : Nat) (c : List (List Char)) :
    ∀ (db : DB) (pos : Nat), allAnswersPresent db.answers qid pos c = true →
      insertAnswers db qid pos now c = (db, 0) := by
  induction c with
  | nil => intro db pos _; rfl
  | cons a rest ih =>
    intro db pos h
    simp only [allAnswersPresent, Bool.and_eq_true] at h
    simp only [insertAnswers, h.1, if_true]
    exact ih db (pos + 1) h.2

theorem insertAnswers_fresh (qid now : Nat) (c : List (List Char)) :
    ∀ (db : DB) (pos : Nat),
      (∀ r ∈ db.answers, r.question_id ≠ qid ∨ r.position < pos) →
      insertAnswers db qid pos now c =
        ({ db with
            answers := db.answers ++ mkAnswers qid db.nextAId pos now c,
            nextAId := db.nextAId + c.length }, c.length) := by
  induction c with
  | nil =>
    intro db pos _
    simp [insertAnswers, mkAnswers]
  | cons a rest ih =>
    intro db pos h
    have hha : hasAnswer db.answers qid pos a = false := by
      simp only [hasAnswer, List.any_eq_false]
      intro r hr
      rcases h r hr with hne | hlt
      · simp [hne]
      · have : r.position ≠ pos := Nat.ne_of_lt hlt
        simp [this]
    simp only [insertAnswers, hha, Bool.false_eq_true, if_false]
    rw [ih _ (pos + 1) ?_]
    · refine Prod.ext ?_ ?_
      · simp only [mkAnswers, DB.mk.injEq, List.length_cons, List.append_assoc,
          List.cons_append, List.nil_append, List.singleton_append]
        exact ⟨trivial, trivial, trivial, by omega⟩
      · simp only [mkAnswers, List.length_cons]
    · intro r hr
      rcases List.mem_append.mp hr with hr | hr
      · rcases h r hr with hne | hlt
        · exact Or.inl hne
        · exact Or.inr (Nat.lt_succ_of_lt hlt)
      · rcases List.mem_singleton.mp hr with rfl
        exact Or.inr (Nat.lt_succ_self pos)

theorem processEntry_unanswered (db : DB) (ch src : List Char) (now : Nat) (e : Entry)
    (h : isUnanswered (surviving e) = true) :
    processEntry db ch src now e = (db, ⟨0, 0, 1, 0⟩) := by
  simp [processEntry, h]

theorem processEntry_dup (db : DB) (ch src : List Char) (now : Nat) (e : Entry)
    (r : QuestionRow) (hs : isUnanswered (surviving e) = false)
    (hf : findQuestion db.questions ch (normalize_text (strip e.question)) = some r) :
    processEntry db ch src now e =
      ((insertAnswers db r.id 1 now (surviving e)).1,
       ⟨0, 1, 0, (insertAnswers db r.id 1 now (surviving e)).2⟩) := by
  simp [processEntry, hs, hf]

theorem processEntry_new (db : DB) (ch src : List Char) (now : Nat) (e : Entry)
    (hs : isUnanswered (surviving e) = false)
    (hf : findQuestion db.questions ch (normalize_text (strip e.question)) = none) :
    processEntry db ch src now e =
      ((insertAnswers { db with
          questions := db.questions ++
            [⟨db.nextQId, ch, strip e.question, normalize_text (strip e.question),
              detect_type (strip e.question), src, now⟩],
          nextQId := db.nextQId + 1 } db.nextQId 1 now (surviving e)).1,
       ⟨1, 0, 0, (insertAnswers { db with
          questions := db.questions ++
            [⟨db.nextQId, ch, strip e.question, normalize_text (strip e.question),
              detect_type (strip e.question), src, now⟩],
          nextQId := db.nextQId + 1 } db.nextQId 1 now (surviving e)).2⟩) := by
  simp [processEntry, hs, hf]

/-- C5: an entry whose trimmed, emptiness-filtered correct-answer list is empty
or is exactly the single sentinel 未作答 creates no Question row and no Answer
row: the engine returns the store unchanged and increments only the
unanswered-skip counter. -/
theorem unanswered_filter (db : DB) (chapter source : List Char) (now : Nat)
    (e : Entry) (h : surviving e = [] ∨ surviving e = [SENTINEL]) :
    processEntry db chapter source now e = (db, ⟨0, 0, 1, 0⟩) := by
  apply processEntry_unanswered
  rcases h with h | h <;> simp [h, isUnanswered]

/-- C5 witness. -/
theorem unanswered_filter_witness :
    (surviving ⟨"q".data, [], ["未作答".data]⟩ = [] ∨
      surviving ⟨"q".data, [], ["未作答".data]⟩ = [SENTINEL]) ∧
    processEntry emptyDB "ch1".data "s".data 0 ⟨"q".data, [], ["未作答".data]⟩ =
      (emptyDB, ⟨0, 0, 1, 0⟩) :=
  ⟨by decide, unanswered_filter emptyDB "ch1".data "s".data 0
    ⟨"q".data, [], ["未作答".data]⟩ (by decide)⟩

/-- C6: an entry whose (chapter, normalized key) matches an existing Question
row is counted duplicate-skipped, inserts no question, leaves the questions
table — hence every field of the existing row — unchanged, and every answer row
it adds carries the existing row's id. -/
theorem duplicate_immutable (db : DB) (chapter source : List Char) (now : Nat)
    (e : Entry) (r : QuestionRow)
    (hs : isUnanswered (surviving e) = false)
    (hdup : findQuestion db.questions chapter (normalize_text (strip e.question)) = some r) :
    (processEntry db chapter source now e).1.questions = db.questions ∧
    (processEntry db chapter source now e).2.inserted_questions = 0 ∧
    (processEntry db chapter source now e).2.duplicates_skipped = 1 ∧
    ∀ a ∈ (processEntry db chapter source now e).1.answers,
      a ∈ db.answers ∨ a.question_id = r.id := by
  rw [processEntry_dup db chapter source now e r hs hdup]
  obtain ⟨h1, -, as, h3, h4⟩ := insertAnswers_state r.id now (surviving e) db 1
  refine ⟨h1, rfl, rfl, ?_⟩
  intro a ha
  rw [h3] at ha
  rcases List.mem_append.mp ha with ha | ha
  · exact Or.inl ha
  · exact Or.inr (h4 a ha)

/-- C6 witness. -/
theorem duplicate_immutable_witness :
    (isUnanswered (surviving ⟨" q ".data, [], ["B".data]⟩) = false ∧
      findQuestion [⟨1, "ch1".data, "q".data, "q".data, "選擇題".data, "s".data, 0⟩]
        "ch1".data (normalize_text (strip " q ".data)) =
        some ⟨1, "ch1".data, "q".data, "q".data, "選擇題".data, "s".data, 0⟩) ∧
    ((processEntry ⟨[⟨1, "ch1".data, "q".data, "q".data, "選擇題".data, "s".data, 0⟩],
        [], 2, 1⟩ "ch1".data "s".data 7 ⟨" q ".data, [], ["B".data]⟩).1.questions =
      [⟨1, "ch1".data, "q".data, "q".data, "選擇題".data, "s".data, 0⟩] ∧
     (processEntry ⟨[⟨1, "ch1".data, "q".data, "q".data, "選擇題".data, "s".data, 0⟩],
        [], 2, 1⟩ "ch1".data "s".data 7 ⟨" q ".data, [], ["B".data]⟩).2.inserted_questions = 0 ∧
     (processEntry ⟨[⟨1, "ch1".data, "q".data, "q".data, "選擇題".data, "s".data, 0⟩],
        [], 2, 1⟩ "ch1".data "s".data 7 ⟨" q ".data, [], ["B".data]⟩).2.duplicates_skipped = 1 ∧
     ∀ a ∈ (processEntry ⟨[⟨1, "ch1".data, "q".data, "q".data, "選擇題".data, "s".data, 0⟩],
        [], 2, 1⟩ "ch1".data "s".data 7 ⟨" q ".data, [], ["B".data]⟩).1.answers,
       a ∈ ([] : List AnswerRow) ∨ a.question_id =
         (⟨1, "ch1".data, "q".data, "q".data, "選擇題".data, "s".data, 0⟩ : QuestionRow).id) :=
  ⟨⟨by decide, by decide⟩,
   duplicate_immutable _ "ch1".data "s".data 7 ⟨" q ".data, [], ["B".data]⟩ _
     (by decide) (by decide)⟩

/-- C3: for an entry that survives the filter and whose question is new in its
chapter, exactly `k = |surviving correct answers|` Answer rows are appended,
carrying the fresh question id, positions `1..k` in source order, and the
inserted-answer counter is incremented by exactly `k` (all `k` rows are new). -/
theorem position_fidelity (db : DB) (chapter source : List Char) (now : Nat)
    (e : Entry) (hwf : WF db)
    (hs : isUnanswered (surviving e) = false)
    (hnew : findQuestion db.questions chapter (normalize_text (strip e.question)) = none) :
    (processEntry db chapter source now e).1.answers =
      db.answers ++ mkAnswers db.nextQId db.nextAId 1 now (surviving e) ∧
    (processEntry db chapter source now e).2.inserted_answers = (surviving e).length := by
  rw [processEntry_new db chapter source now e hs hnew,
      insertAnswers_fresh db.nextQId now (surviving e) _ 1 ?_]
  · exact ⟨rfl, rfl⟩
  · intro r hr
    exact Or.inl (Nat.ne_of_lt (hwf.2 r hr))

/-- C3 witness. -/
theorem position_fidelity_witness :
    (WF emptyDB ∧
      isUnanswered (surviving ⟨"q".data, [], ["A".data, "A".data]⟩) = false ∧
      findQuestion emptyDB.questions "ch2".data
        (normalize_text (strip "q".data)) = none) ∧
    ((processEntry emptyDB "ch2".data "s".data 3
        ⟨"q".data, [], ["A".data, "A".data]⟩).1.answers =
      emptyDB.answers ++ mkAnswers emptyDB.nextQId emptyDB.nextAId 1 3
        (surviving ⟨"q".data, [], ["A".data, "A".data]⟩) ∧
     (processEntry emptyDB "ch2".data "s".data 3
        ⟨"q".data, [], ["A".data, "A".data]⟩).2.inserted_answers =
      (surviving ⟨"q".data, [], ["A".data, "A".data]⟩).length) :=
  ⟨⟨⟨by decide, by decide⟩, by decide, by decide⟩,
   position_fidelity emptyDB "ch2".data "s".data 3 ⟨"q".data, [], ["A".data, "A".data]⟩
     ⟨by decide, by decide⟩ (by decide) (by decide)⟩

theorem processEntry_extends (db : DB) (ch src : List Char) (now : Nat) (e : Entry) :
    ∃ qs as, (processEntry db ch src now e).1.questions = db.questions ++ qs ∧
      (processEntry db ch src now e).1.answers = db.answers ++ as := by
  cases hu : isUnanswered (surviving e) with
  | true =>
    rw [processEntry_unanswered db ch src now e hu]
    exact ⟨[], [], by simp, by simp⟩
  | false =>
    cases hf : findQuestion db.questions ch (normalize_text (strip e.question)) with
    | some r =>
      rw [processEntry_dup db ch src now e r hu hf]
      obtain ⟨h1, -, as, h3, -⟩ := insertAnswers_state r.id now (surviving e) db 1
      exact ⟨[], as, by rw [h1]; simp, h3⟩
    | none =>
      rw [processEntry_new db ch src now e hu hf]
      obtain ⟨h1, -, as, h3, -⟩ :=
        insertAnswers_state db.nextQId now (surviving e)
          { db with
            questions := db.questions ++
              [⟨db.nextQId, ch, strip e.question, normalize_text (strip e.question),
                detect_type (strip e.question), src, now⟩],
            nextQId := db.nextQId + 1 } 1
      exact ⟨[⟨db.nextQId, ch, strip e.question, normalize_text (strip e.question),
        detect_type (strip e.question), src, now⟩], as, h1, h3⟩

theorem saturated_extends {db db' : DB} {ch : List Char} {e : Entry}
    (h : saturated db ch e)
    (hq : ∃ qs, db'.questions = db.questions ++ qs)
    (ha : ∃ as, db'.answers = db.answers ++ as) : saturated db' ch e := by
  rcases h with h | ⟨r, hr, hall⟩
  · exact Or.inl h
  · obtain ⟨qs, hq⟩ := hq
    obtain ⟨as, ha⟩ := ha
    refine Or.inr ⟨r, ?_, ?_⟩
    · rw [hq]; exact findQuestion_append_some hr qs
    · rw [ha]; exact allAnswersPresent_append _ _ _ _ _ hall

theorem processEntry_saturated (db : DB) (ch src : List Char) (now : Nat) (e : Entry) :
    saturated (processEntry db ch src now e).1 ch e := by
  cases hu : isUnanswered (surviving e) with
  | true => exact Or.inl hu
  | false =>
    cases hf : findQuestion db.questions ch (normalize_text (strip e.question)) with
    | some r =>
      rw [processEntry_dup db ch src now e r hu hf]
      refine Or.inr ⟨r, ?_, ?_⟩
      · obtain ⟨h1, -, -⟩ := insertAnswers_state r.id now (surviving e) db 1
        rw [h1]
        exact hf
      · exact insertAnswers_present r.id now (surviving e) db 1
    | none =>
      rw [processEntry_new db ch src now e hu hf]
      refine Or.inr ⟨⟨db.nextQId, ch, strip e.question, normalize_text (strip e.question),
        detect_type (strip e.question), src, now⟩, ?_, ?_⟩
      · obtain ⟨h1, -, -⟩ :=
          insertAnswers_state db.nextQId now (surviving e)
            { db with
              questions := db.questions ++
                [⟨db.nextQId, ch, strip e.question, normalize_text (strip e.question),
                  detect_type (strip e.question), src, now⟩],
              nextQId := db.nextQId + 1 } 1
        rw [h1]
        show findQuestion (db.questions ++ _) ch (normalize_text (strip e.question)) = _
        rw [findQuestion_append_none hf]
        simp [findQuestion]
      · exact insertAnswers_present db.nextQId now (surviving e) _ 1

theorem Counters.add_def (a b : Counters) : a + b =
    ⟨a.inserted_questions + b.inserted_questions,
     a.duplicates_skipped + b.duplicates_skipped,
     a.skipped_unanswered + b.skipped_unanswered,
     a.inserted_answers + b.inserted_answers⟩ := rfl

theorem upsertGo_cons (ch src : List Char) (now : Nat) (db : DB) (e : Entry)
    (rest : List Entry) :
    upsertGo ch src now db (e :: rest) =
      ((upsertGo ch src now (processEntry db ch src now e).1 rest).1,
       (processEntry db ch src now e).2 +
         (upsertGo ch src now (processEntry db ch src now e).1 rest).2) := rfl

theorem upsertGo_extends (ch src : List Char) (now : Nat) (es : List Entry) :
    ∀ db : DB, ∃ qs as, (upsertGo ch src now db es).1.questions = db.questions ++ qs ∧
      (upsertGo ch src now db es).1.answers = db.answers ++ as := by
  induction es with
  | nil => exact fun db => ⟨[], [], by simp [upsertGo], by simp [upsertGo]⟩
  | cons e rest ih =>
    intro db
    rw [upsertGo_cons]
    obtain ⟨qs1, as1, h1, h2⟩ := processEntry_extends db ch src now e
    obtain ⟨qs2, as2, h3, h4⟩ := ih (processEntry db ch src now e).1
    exact ⟨qs1 ++ qs2, as1 ++ as2, by rw [h3, h1, List.append_assoc],
      by rw [h4, h2, List.append_assoc]⟩

theorem upsertGo_saturates (ch src : List Char) (now : Nat) (es : List Entry) :
    ∀ db : DB, ∀ e ∈ es, saturated (upsertGo ch src now db es).1 ch e := by
  induction es with
  | nil => intro db e he; cases he
  | cons e0 rest ih =>
    intro db e he
    rw [upsertGo_cons]
    rcases List.mem_cons.mp he with rfl | he
    · obtain ⟨qs, as, hq, ha⟩ :=
        upsertGo_extends ch src now rest (processEntry db ch src now e).1
      exact saturated_extends (processEntry_saturated db ch src now e) ⟨qs, hq⟩ ⟨as, ha⟩
    · exact ih (processEntry db ch src now e0).1 e he

theorem processEntry_noop (db : DB) (ch src : List Char) (now : Nat) (e : Entry)
    (h : saturated db ch e) :
    processEntry db ch src now e =
      (db, if isUnanswered (surviving e) then ⟨0, 0, 1, 0⟩ else ⟨0, 1, 0, 0⟩) := by
  cases hu : isUnanswered (surviving e) with
  | true => rw [processEntry_unanswered db ch src now e hu]; simp
  | false =>
    rcases h with h | ⟨r, hr, hall⟩
    · rw [hu] at h; cases h
    · rw [processEntry_dup db ch src now e r hu hr,
        insertAnswers_noop r.id now (surviving e) db 1 hall]
      simp

theorem upsertGo_noop (ch src : List Char) (now : Nat) (es : List Entry) (db : DB)
    (h : ∀ e ∈ es, saturated db ch e) :
    upsertGo ch src now db es =
      (db, ⟨0, es.countP (fun e => !isUnanswered (surviving e)),
        es.countP (fun e => isUnanswered (surviving e)), 0⟩) := by
  induction es with
  | nil => simp [upsertGo, List.countP, List.countP.go]
  | cons e rest ih =>
    rw [upsertGo_cons, processEntry_noop db ch src now e (h e (List.mem_cons_self e rest))]
    rw [ih (fun e' he' => h e' (List.mem_cons_of_mem e he'))]
    simp only [List.countP_cons, Counters.add_def]
    cases hu : isUnanswered (surviving e) with
    | true => simp [hu, Nat.add_comm]
    | false => simp [hu, Nat.add_comm]

theorem insertAnswers_wf (qid now : Nat) (c : List (List Char)) (db : DB) (pos : Nat)
    (hwf : WF db) (hq : qid < db.nextQId) : WF (insertAnswers db qid pos now c).1 := by
  obtain ⟨h1, h2, as, h3, h4⟩ := insertAnswers_state qid now c db pos
  constructor
  · intro q hqq
    rw [h1] at hqq; rw [h2]
    exact hwf.1 q hqq
  · intro a ha
    rw [h3] at ha; rw [h2]
    rcases List.mem_append.mp ha with ha | ha
    · exact hwf.2 a ha
    · rw [h4 a ha]; exact hq

theorem processEntry_wf (db : DB) (ch src : List Char) (now : Nat) (e : Entry)
    (hwf : WF db) :
    WF (processEntry db ch src now e).1 ∧
    (processEntry db ch src now e).2.inserted_questions ≤
      (processEntry db ch src now e).2.inserted_answers := by
  cases hu : isUnanswered (surviving e) with
  | true =>
    rw [processEntry_unanswered db ch src now e hu]
    exact ⟨hwf, Nat.le_refl _⟩
  | false =>
    cases hf : findQuestion db.questions ch (normalize_text (strip e.question)) with
    | some r =>
      rw [processEntry_dup db ch src now e r hu hf]
      refine ⟨insertAnswers_wf r.id now (surviving e) db 1 hwf ?_, Nat.zero_le _⟩
      exact hwf.1 r (List.mem_of_find?_eq_some hf)
    | none =>
      rw [processEntry_new db ch src now e hu hf]
      have hwf1 : WF { db with
          questions := db.questions ++
            [⟨db.nextQId, ch, strip e.question, normalize_text (strip e.question),
              detect_type (strip e.question), src, now⟩],
          nextQId := db.nextQId + 1 } := by
        constructor
        · intro q hq
          rcases List.mem_append.mp hq with hq | hq
          · exact Nat.lt_succ_of_lt (hwf.1 q hq)
          · rcases List.mem_singleton.mp hq with rfl
            exact Nat.lt_succ_self _
        · intro a ha
          exact Nat.lt_succ_of_lt (hwf.2 a ha)
      refine ⟨insertAnswers_wf db.nextQId now (surviving e) _ 1 hwf1
        (Nat.lt_succ_self _), ?_⟩
      rw [insertAnswers_fresh db.nextQId now (surviving e) _ 1 ?_]
      · cases hc : surviving e with
        | nil => rw [hc] at hu; cases hu
        | cons a l => simp [hc]
      · intro r hr
        exact Or.inl (Nat.ne_of_lt (hwf.2 r hr))

theorem upsertGo_wf (ch src : List Char) (now : Nat) (es : List Entry) :
    ∀ db : DB, WF db →
      WF (upsertGo ch src now db es).1 ∧
      (upsertGo ch src now db es).2.inserted_questions ≤
        (upsertGo ch src now db es).2.inserted_answers := by
  induction es with
  | nil => intro db hwf; exact ⟨hwf, Nat.le_refl _⟩
  | cons e rest ih =>
    intro db hwf
    rw [upsertGo_cons]
    obtain ⟨hwf1, hle1⟩ := processEntry_wf db ch src now e hwf
    obtain ⟨hwf2, hle2⟩ := ih (processEntry db ch src now e).1 hwf1
    exact ⟨hwf2, Nat.add_le_add hle1 hle2⟩

/-- C1: re-running the upsert engine on the parsed entries of any text, against
the store left by a first run, changes nothing: no question or answer insert,
every entry surviving the unanswered filter counted duplicate-skipped (and
the filtered ones counted unanswered-skipped again); and whenever the first
run inserted at least one question, both of its inserted counters are nonzero. -/
theorem import_idempotent (text chapter source : List Char) (db0 : DB) (t1 t2 : Nat)
    (hwf : WF db0) :
    upsert_entries (upsert_entries db0 (parse_blocks text) chapter source t1).1
        (parse_blocks text) chapter source t2 =
      ((upsert_entries db0 (parse_blocks text) chapter source t1).1,
       ⟨0, (parse_blocks text).countP (fun e => !isUnanswered (surviving e)),
        (parse_blocks text).countP (fun e => isUnanswered (surviving e)), 0⟩) ∧
    (1 ≤ (upsert_entries db0 (parse_blocks text) chapter source t1).2.inserted_questions →
      (upsert_entries db0 (parse_blocks text) chapter source t1).2.inserted_questions ≠ 0 ∧
      (upsert_entries db0 (parse_blocks text) chapter source t1).2.inserted_answers ≠ 0) := by
  constructor
  · exact upsertGo_noop chapter source t2 (parse_blocks text) _
      (fun e he => upsertGo_saturates chapter source t1 (parse_blocks text) db0 e he)
  · intro h1
    have h2 := (upsertGo_wf chapter source t1 (parse_blocks text) db0 hwf).2
    simp only [upsert_entries] at h1 ⊢
    constructor
    · omega
    · omega

/-- C1 witness at the worked example over an empty store. -/
theorem import_idempotent_witness :
    WF emptyDB ∧
    (upsert_entries (upsert_entries emptyDB (parse_blocks exampleText) "ch1".data
        "s".data 1).1 (parse_blocks exampleText) "ch1".data "s".data 2 =
      ((upsert_entries emptyDB (parse_blocks exampleText) "ch1".data "s".data 1).1,
       ⟨0, (parse_blocks exampleText).countP (fun e => !isUnanswered (surviving e)),
        (parse_blocks exampleText).countP (fun e => isUnanswered (surviving e)), 0⟩) ∧
     (1 ≤ (upsert_entries emptyDB (parse_blocks exampleText) "ch1".data
        "s".data 1).2.inserted_questions →
       (upsert_entries emptyDB (parse_blocks exampleText) "ch1".data
         "s".data 1).2.inserted_questions ≠ 0 ∧
       (upsert_entries emptyDB (parse_blocks exampleText) "ch1".data
         "s".data 1).2.inserted_answers ≠ 0)) :=
  ⟨by simp [WF, emptyDB], import_idempotent exampleText "ch1".data "s".data emptyDB 1 2
    (by simp [WF, emptyDB])⟩

theorem upsertGo_agrees (ch src : List Char) (now : Nat) {es es' : List Entry}
    (h : List.Forall₂ EntryAgrees es es') :
    ∀ db : DB, upsertGo ch src now db es = upsertGo ch src now db es' := by
  induction h with
  | nil => intro db; rfl
  | cons hab htail ih =>
    intro db
    rename_i a b l1 l2
    rw [upsertGo_cons, upsertGo_cons]
    have hab' : processEntry db ch src now a = processEntry db ch src now b := by
      obtain ⟨hq, hc⟩ := hab
      cases a; cases b
      cases hq; cases hc
      rfl
    rw [hab', ih]

/-- C10: two entry sequences agreeing on every question and correct-answer
list, but with arbitrarily different `yourAnswers`, produce identical store
states and identical counters — on both duplicated engines.  `yourAnswers`
are parsed but never persisted. -/
theorem your_answers_irrelevant (db : DB) (chapter source : List Char) (now : Nat)
    (es es' : List Entry) (h : List.Forall₂ EntryAgrees es es') :
    upsert_entries db es chapter source now = upsert_entries db es' chapter source now ∧
    import_questions_from_entries db es chapter source now =
      import_questions_from_entries db es' chapter source now :=
  ⟨upsertGo_agrees chapter source now h db, upsertGo_agrees chapter source now h db⟩

/-- C10 witness. -/
theorem your_answers_irrelevant_witness :
    List.Forall₂ EntryAgrees [⟨"q".data, ["X".data, "Y".data], ["A".data]⟩]
      [⟨"q".data, [], ["A".data]⟩] ∧
    (upsert_entries emptyDB [⟨"q".data, ["X".data, "Y".data], ["A".data]⟩]
        "ch1".data "s".data 0 =
      upsert_entries emptyDB [⟨"q".data, [], ["A".data]⟩] "ch1".data "s".data 0 ∧
     import_questions_from_entries emptyDB [⟨"q".data, ["X".data, "Y".data], ["A".data]⟩]
        "ch1".data "s".data 0 =
      import_questions_from_entries emptyDB [⟨"q".data, [], ["A".data]⟩]
        "ch1".data "s".data 0) :=
  ⟨List.Forall₂.cons ⟨rfl, rfl⟩ List.Forall₂.nil,
   your_answers_irrelevant emptyDB "ch1".data "s".data 0 _ _
     (List.Forall₂.cons ⟨rfl, rfl⟩ List.Forall₂.nil)⟩

theorem scanLine_ignored (l : List Char) (cur : Option Entry) (acc : List Entry)
    (h1 : startsWith (strip l) LABEL_Q = false)
    (h2 : cur = none ∨ (startsWith (strip l) LABEL_YOUR = false ∧
      startsWith (strip l) LABEL_CORRECT = false)) :
    scanLine l cur acc = (PMode.scan, cur, acc) := by
  rcases h2 with rfl | ⟨h2, h3⟩
  · simp [scanLine, h1]
  · simp [scanLine, h1, h2, h3]

theorem parseLines_skip (l : List Char) (rest : List (List Char)) (cur : Option Entry)
    (acc : List Entry)
    (h1 : startsWith (strip l) LABEL_Q = false)
    (h2 : cur = none ∨ (startsWith (strip l) LABEL_YOUR = false ∧
      startsWith (strip l) LABEL_CORRECT = false)) :
    parseLines (l :: rest) PMode.scan cur acc = parseLines rest PMode.scan cur acc := by
  simp only [parseLines, scanLine_ignored l cur acc h1 h2]

theorem parseLines_skipAll (pre rest : List (List Char)) (acc : List Entry)
    (hpre : ∀ p ∈ pre, startsWith (strip p) LABEL_Q = false) :
    parseLines (pre ++ rest) PMode.scan none acc =
      parseLines rest PMode.scan none acc := by
  induction pre with
  | nil => rfl
  | cons p ps ih =>
    rw [List.cons_append,
      parseLines_skip p (ps ++ rest) none acc (hpre p (List.mem_cons_self p ps))
        (Or.inl rfl),
      ih (fun q hq => hpre q (List.mem_cons_of_mem p hq))]

/-- C9: the scan loop ignores — with no effect at all on its result — any line
that does not begin with a known marker, and any your-answer or correct-answer
marker line while no entry is open; consequently lines preceding the first
question-marker never materialize an entry (with no question-marker line at
all, the open-entry cursor stays `none` and such lines are simply skipped). -/
theorem parser_permissive (l : List Char) (rest : List (List Char))
    (cur : Option Entry) (acc : List Entry) (pre : List (List Char))
    (h1 : startsWith (strip l) LABEL_Q = false)
    (h2 : cur = none ∨ (startsWith (strip l) LABEL_YOUR = false ∧
      startsWith (strip l) LABEL_CORRECT = false)) :
    parseLines (l :: rest) PMode.scan cur acc = parseLines rest PMode.scan cur acc ∧
    ((∀ p ∈ pre, startsWith (strip p) LABEL_Q = false) →
      parseLines (pre ++ rest) PMode.scan none acc =
        parseLines rest PMode.scan none acc) :=
  ⟨parseLines_skip l rest cur acc h1 h2,
   fun hpre => parseLines_skipAll pre rest acc hpre⟩

/-- C9 witness. -/
theorem parser_permissive_witness :
    (startsWith (strip "hello".data) LABEL_Q = false ∧
      (none = (none : Option Entry) ∨
        (startsWith (strip "hello".data) LABEL_YOUR = false ∧
         startsWith (strip "hello".data) LABEL_CORRECT = false))) ∧
    (parseLines ["hello".data, "題目：x".data] PMode.scan none [] =
      parseLines ["題目：x".data] PMode.scan none [] ∧
     ((∀ p ∈ ["junk".data, "正確答案：A".data],
        startsWith (strip p) LABEL_Q = false) →
      parseLines (["junk".data, "正確答案：A".data] ++ ["題目：x".data])
          PMode.scan none [] =
        parseLines ["題目：x".data] PMode.scan none [])) :=
  ⟨⟨by decide, Or.inl rfl⟩,
   parser_permissive "hello".data ["題目：x".data] none []
     ["junk".data, "正確答案：A".data] (by decide) (Or.inl rfl)⟩

theorem chapterGo_cases (fb : Option (List Char)) : ∀ segs : List (List Char),
    chapterGo segs fb = fallbackResult fb ∨
      ∃ n, n ≤ 10 ∧ chapterGo segs fb = chTag n := by
  intro segs
  induction segs with
  | nil => exact Or.inl rfl
  | cons p ps ih =>
    simp only [chapterGo]
    cases searchCh false p with
    | none => exact ih
    | some n =>
      by_cases hn : n ≤ 10
      · exact Or.inr ⟨n, hn, by simp [hn]⟩
      · simpa [hn] using ih

/-- C7: the resolver scans the stem and then the path segments from innermost
to root, taking per segment the leftmost case-insensitive whole-word `ch`+1–2
digit match; on a segment whose match value lies in [0,10] it returns
`"ch"+value`, otherwise it falls back to the override when that is nonempty,
else `"unknown"` — it always returns one of these.  In particular
`…/ch3/midterm.txt` resolves to `ch3`, `notes.txt` to `unknown`, and
`ch99_extra.txt` (99 out of range) to `unknown`. -/
theorem chapter_resolution :
    determine_chapter "midterm".data ["ch3".data, "midterm.txt".data] none = "ch3".data ∧
    determine_chapter "notes".data ["notes.txt".data] none = UNKNOWN ∧
    determine_chapter "ch99_extra".data ["ch99_extra.txt".data] none = UNKNOWN ∧
    ∀ (stem : List Char) (parts : List (List Char)) (fb : Option (List Char)),
      determine_chapter stem parts fb = fallbackResult fb ∨
        ∃ n, n ≤ 10 ∧ determine_chapter stem parts fb = chTag n := by
  refine ⟨by decide, by decide, by decide, ?_⟩
  intro stem parts fb
  exact chapterGo_cases fb _

/-- C8 counterexample: on the command-line route (`read_text` with the default
`utf-8` encoding) a leading byte-order mark is *not* stripped: it survives into
the first line, the question-marker no longer matches, and the same text parses
to different entries with and without the BOM. -/
theorem bom_not_stripped_cli :
    parse_blocks (read_text_utf8 (BOM :: "題目：甲\n正確答案：乙".data)) ≠
      parse_blocks (read_text_utf8 "題目：甲\n正確答案：乙".data) := by
  decide

/-- C8 amended: on the web upload route, which decodes with `utf-8-sig`, a
leading BOM is stripped before the core runs, so a blob with the BOM parses to
the same entries and produces the same persisted rows and counters as the blob
without it. -/
theorem bom_stripped_on_upload (s : List Char) (db : DB) (ch src : List Char)
    (now : Nat) :
    parse_blocks (decode_utf8_sig (BOM :: s)) = parse_blocks s ∧
    upsert_entries db (parse_blocks (decode_utf8_sig (BOM :: s))) ch src now =
      upsert_entries db (parse_blocks s) ch src now := by
  have h : decode_utf8_sig (BOM :: s) = s := by simp [decode_utf8_sig]
  rw [h]
  exact ⟨rfl, rfl⟩

theorem collapseWs_cons_nonws (c : Char) (cs : List Char) (h : isWs c = false) :
    collapseWs (c :: cs) = c :: collapseWs cs := by
  cases cs with
  | nil => simp [collapseWs, h]
  | cons d cs' => simp [collapseWs, h]

theorem collapseWs_cons_ws (cs : List Char) : ∀ c : Char, isWs c = true →
    collapseWs (c :: cs) = ' ' :: collapseWs (cs.dropWhile isWs) := by
  induction cs with
  | nil => intro c hc; simp [collapseWs, hc, List.dropWhile]
  | cons d cs' ih =>
    intro c hc
    by_cases hd : isWs d = true
    · rw [show collapseWs (c :: d :: cs') = collapseWs (d :: cs') from by
        simp [collapseWs, hc, hd]]
      rw [ih d hd]
      simp [List.dropWhile, hd]
    · replace hd : isWs d = false := by simpa using hd
      rw [show collapseWs (c :: d :: cs') = ' ' :: collapseWs (d :: cs') from by
        simp [collapseWs, hc, hd]]
      simp [List.dropWhile, hd]

theorem wordsOf_cons_ws (c : Char) (cs : List Char) (h : isWs c = true) :
    wordsOf (c :: cs) = wordsOf cs := by
  simp [wordsOf, h]

theorem wordsOf_cons_nonws (cs : List Char) : ∀ c : Char, isWs c = false →
    wordsOf (c :: cs) = (c :: cs.takeWhile fun x => !isWs x) ::
      wordsOf (cs.dropWhile fun x => !isWs x) := by
  induction cs with
  | nil => intro c hc; simp [wordsOf, hc, List.takeWhile, List.dropWhile]
  | cons d cs' ih =>
    intro c hc
    by_cases hd : isWs d = true
    · rw [show wordsOf (c :: d :: cs') = [c] :: wordsOf (d :: cs') from by
        simp [wordsOf, hc, hd]]
      simp [List.takeWhile_cons, List.dropWhile_cons, hd, wordsOf_cons_ws d cs' hd]
    · replace hd : isWs d = false := by simpa using hd
      rw [show wordsOf (c :: d :: cs') =
          (match wordsOf (d :: cs') with
           | [] => [[c]]
           | w :: ws => (c :: w) :: ws) from by simp [wordsOf, hc, hd]]
      rw [ih d hd]
      simp [List.takeWhile_cons, List.dropWhile_cons, hd]

theorem rstrip_cons (c : Char) (cs : List Char) :
    rstrip (c :: cs) =
      if rstrip cs = [] then (if isWs c = true then [] else [c])
      else c :: rstrip cs := by
  simp only [rstrip]
  by_cases h : rstrip cs = []
  · simp [h]
  · have h1 : (rstrip cs).isEmpty = false := by
      cases hx : rstrip cs with
      | nil => exact absurd hx h
      | cons y ys => rfl
    simp [h1, h]

theorem rstrip_eq_nil_iff (s : List Char) :
    rstrip s = [] ↔ ∀ c ∈ s, isWs c = true := by
  induction s with
  | nil => simp [rstrip]
  | cons c cs ih =>
    rw [rstrip_cons]
    by_cases hr : rstrip cs = []
    · rw [if_pos hr]
      by_cases hc : isWs c = true
      · simp only [hc, if_true, List.mem_cons]
        constructor
        · intro _ d hd
          rcases hd with rfl | hd
          · exact hc
          · exact ih.mp hr d hd
        · intro _; trivial
      · replace hc : isWs c = false := by simpa using hc
        simp [hc]
    · rw [if_neg hr]
      constructor
      · intro h; cases h
      · intro h
        exact absurd (ih.mpr fun d hd => h d (List.mem_cons_of_mem c hd)) hr

theorem rstrip_nows (s : List Char) (h : ∀ c ∈ s, isWs c = false) :
    rstrip s = s := by
  induction s with
  | nil => rfl
  | cons c cs ih =>
    have ih' := ih fun d hd => h d (List.mem_cons_of_mem c hd)
    rw [rstrip_cons, ih']
    cases cs with
    | nil => simp [h c (List.mem_cons_self c [])]
    | cons d ds => simp

theorem rstrip_append_allws (d : List Char) (hd : ∀ c ∈ d, isWs c = true) :
    ∀ x : List Char, rstrip (x ++ d) = rstrip x := by
  intro x
  induction x with
  | nil => simp [rstrip, (rstrip_eq_nil_iff d).mpr hd]
  | cons c x' ih => rw [List.cons_append, rstrip_cons, ih, rstrip_cons]

theorem rstrip_append (x s : List Char) (h : rstrip s ≠ []) :
    rstrip (x ++ s) = x ++ rstrip s := by
  induction x with
  | nil => rfl
  | cons c x' ih =>
    rw [List.cons_append, rstrip_cons, ih, if_neg (by simp [h])]
    rfl

theorem lstrip_nil : lstrip [] = [] := rfl

theorem lstrip_cons (c : Char) (cs : List Char) :
    lstrip (c :: cs) = if isWs c = true then lstrip cs else c :: cs := by
  simp [lstrip, List.dropWhile_cons]

theorem lstrip_rstrip_comm (s : List Char) :
    lstrip (rstrip s) = rstrip (lstrip s) := by
  induction s with
  | nil => rfl
  | cons c cs ih =>
    by_cases hc : isWs c = true <;> by_cases hr : rstrip cs = []
    · simp [rstrip_cons, lstrip_cons, hc, hr, ← ih, lstrip_nil]
    · simp [rstrip_cons, lstrip_cons, hc, hr, ih]
    · simp [rstrip_cons, lstrip_cons, hc, hr]
    · simp [rstrip_cons, lstrip_cons, hc, hr]

theorem lstrip_idem (s : List Char) : lstrip (lstrip s) = lstrip s := by
  induction s with
  | nil => rfl
  | cons c cs ih =>
    rw [lstrip_cons]
    by_cases hc : isWs c = true
    · rw [if_pos hc]
      exact ih
    · replace hc : isWs c = false := by simpa using hc
      rw [if_neg (by simp [hc]), lstrip_cons, if_neg (by simp [hc])]

theorem rstrip_idem (s : List Char) : rstrip (rstrip s) = rstrip s := by
  induction s with
  | nil => rfl
  | cons c cs ih =>
    rw [rstrip_cons]
    by_cases hr : rstrip cs = []
    · rw [if_pos hr]
      by_cases hc : isWs c = true
      · rw [if_pos hc]
        rfl
      · replace hc : isWs c = false := by simpa using hc
        rw [if_neg (by simp [hc]), rstrip_cons]
        simp [rstrip, hc]
    · rw [if_neg hr, rstrip_cons, ih, if_neg hr]

theorem strip_idem (s : List Char) : strip (strip s) = strip s := by
  show rstrip (lstrip (rstrip (lstrip s))) = rstrip (lstrip s)
  rw [lstrip_rstrip_comm (lstrip s), lstrip_idem, rstrip_idem]

theorem normalize_strip (s : List Char) :
    normalize_text (strip s) = normalize_text s := by
  show collapseWs (strip (strip s)) = collapseWs (strip s)
  rw [strip_idem]

theorem wordsOf_eq_nil_iff (s : List Char) :
    wordsOf s = [] ↔ ∀ c ∈ s, isWs c = true := by
  induction s with
  | nil => simp [wordsOf]
  | cons c cs ih =>
    by_cases hc : isWs c = true
    · rw [wordsOf_cons_ws c cs hc, ih]
      simp [hc]
    · replace hc : isWs c = false := by simpa using hc
      rw [wordsOf_cons_nonws cs c hc]
      simp [hc]

theorem dropWhile_head_false {p : Char → Bool} {l : List Char} {d : Char}
    {t : List Char} (h : l.dropWhile p = d :: t) : p d = false := by
  induction l with
  | nil => cases h
  | cons c cs ih =>
    rw [List.dropWhile_cons] at h
    by_cases hc : p c = true
    · rw [if_pos hc] at h
      exact ih h
    · rw [if_neg hc] at h
      cases h
      simpa using hc

theorem joinSp_cons (w : List Char) (ws : List (List Char)) (h : ws ≠ []) :
    joinSp (w :: ws) = w ++ ' ' :: joinSp ws := by
  cases ws with
  | nil => exact absurd rfl h
  | cons v vs => rfl

theorem collapseWs_append_nows (x y : List Char) (hx : ∀ c ∈ x, isWs c = false) :
    collapseWs (x ++ y) = x ++ collapseWs y := by
  induction x with
  | nil => rfl
  | cons c x' ih =>
    rw [List.cons_append, collapseWs_cons_nonws c _ (hx c (List.mem_cons_self c x')),
      ih (fun d hd => hx d (List.mem_cons_of_mem c hd))]
    rfl

theorem norm_join_aux : ∀ (n : Nat) (s : List Char), s.length ≤ n →
    normalize_text s = joinSp (wordsOf s) := by
  intro n
  induction n with
  | zero =>
    intro s hs
    rw [List.length_eq_zero.mp (Nat.le_zero.mp hs)]
    rfl
  | succ n ih =>
    intro s hs
    match s with
    | [] => rfl
    | c :: cs =>
      have hcs : cs.length ≤ n := by
        simpa [List.length_cons, Nat.succ_le_succ_iff] using hs
      by_cases hc : isWs c = true
      · have h1 : normalize_text (c :: cs) = normalize_text cs := by
          show collapseWs (rstrip (lstrip (c :: cs))) = _
          rw [lstrip_cons, if_pos hc]
          rfl
        rw [h1, wordsOf_cons_ws c cs hc]
        exact ih cs hcs
      · replace hc : isWs c = false := by simpa using hc
        have hl : lstrip (c :: cs) = c :: cs := by rw [lstrip_cons, if_neg (by simp [hc])]
        have hsplit : cs = (cs.takeWhile fun x => !isWs x) ++
            (cs.dropWhile fun x => !isWs x) := (List.takeWhile_append_dropWhile _ _).symm
        have htwno : ∀ x ∈ (cs.takeWhile fun x => !isWs x), isWs x = false := by
          intro x hx
          have := List.mem_takeWhile_imp hx
          simpa using this
        have hctwno : ∀ x ∈ c :: (cs.takeWhile fun x => !isWs x), isWs x = false := by
          intro x hx
          rcases List.mem_cons.mp hx with rfl | hx
          · exact hc
          · exact htwno x hx
        rw [wordsOf_cons_nonws cs c hc]
        by_cases hdwn : wordsOf (cs.dropWhile fun x => !isWs x) = []
        · have hdww : ∀ x ∈ (cs.dropWhile fun x => !isWs x), isWs x = true :=
            (wordsOf_eq_nil_iff _).mp hdwn
          have h2 : rstrip (c :: cs) = c :: (cs.takeWhile fun x => !isWs x) := by
            conv => lhs; rw [hsplit]
            rw [show c :: ((cs.takeWhile fun x => !isWs x) ++
                (cs.dropWhile fun x => !isWs x)) =
              (c :: (cs.takeWhile fun x => !isWs x)) ++
                (cs.dropWhile fun x => !isWs x) from rfl]
            rw [rstrip_append_allws _ hdww, rstrip_nows _ hctwno]
          show collapseWs (rstrip (lstrip (c :: cs))) = _
          rw [hl, h2, hdwn]
          rw [show collapseWs (c :: (cs.takeWhile fun x => !isWs x)) =
            collapseWs ((c :: (cs.takeWhile fun x => !isWs x)) ++ []) from by
              rw [List.append_nil]]
          rw [collapseWs_append_nows _ _ hctwno]
          simp [collapseWs, joinSp]
        · obtain ⟨d, dtl, hd⟩ : ∃ d dtl, (cs.dropWhile fun x => !isWs x) = d :: dtl := by
            cases hx : (cs.dropWhile fun x => !isWs x) with
            | nil => rw [hx] at hdwn; exact absurd rfl hdwn
            | cons d dtl => exact ⟨d, dtl, rfl⟩
          have hdws : isWs d = true := by
            have := dropWhile_head_false hd
            simpa using this
          have hex : ∃ x ∈ dtl, isWs x = false := by
            by_contra hall
            push_neg at hall
            have : ∀ x ∈ d :: dtl, isWs x = true := by
              intro x hx
              rcases List.mem_cons.mp hx with rfl | hx
              · exact hdws
              · rcases hb : isWs x with _ | _
                · exact absurd hb (hall x hx)
                · rfl
            rw [hd] at hdwn
            exact hdwn ((wordsOf_eq_nil_iff _).mpr this)
          have hrdtl_ne : rstrip dtl ≠ [] := by
            rw [Ne, rstrip_eq_nil_iff]
            intro hall
            obtain ⟨x, hx, hxf⟩ := hex
            rw [hall x hx] at hxf
            cases hxf
          have hrdw_ne : rstrip (d :: dtl) ≠ [] := by
            rw [rstrip_cons, if_neg hrdtl_ne]
            simp
          have h2 : rstrip (c :: cs) =
              (c :: (cs.takeWhile fun x => !isWs x)) ++ rstrip (d :: dtl) := by
            conv => lhs; rw [hsplit, hd]
            rw [show c :: ((cs.takeWhile fun x => !isWs x) ++ (d :: dtl)) =
              (c :: (cs.takeWhile fun x => !isWs x)) ++ (d :: dtl) from rfl]
            exact rstrip_append _ _ hrdw_ne
          have h3 : rstrip (d :: dtl) = d :: rstrip dtl := by
            rw [rstrip_cons, if_neg hrdtl_ne]
          have h4 : collapseWs (rstrip (d :: dtl)) =
              ' ' :: normalize_text dtl := by
            rw [h3, collapseWs_cons_ws _ d hdws]
            show _ = ' ' :: collapseWs (rstrip (lstrip dtl))
            rw [show (rstrip dtl).dropWhile isWs = lstrip (rstrip dtl) from rfl,
              lstrip_rstrip_comm]
          have hdtl_len : dtl.length ≤ n := by
            have h5 : cs.length = (cs.takeWhile fun x => !isWs x).length +
                (d :: dtl).length := by
              conv => lhs; rw [hsplit, hd]
              rw [List.length_append]
            simp only [List.length_cons] at h5
            omega
          show collapseWs (rstrip (lstrip (c :: cs))) = _
          rw [hl, h2, collapseWs_append_nows _ _ hctwno, h4, hd,
            wordsOf_cons_ws d dtl hdws,
            joinSp_cons _ _ (by rw [hd, wordsOf_cons_ws d dtl hdws] at hdwn; exact hdwn),
            ih dtl hdtl_len]

theorem norm_join (s : List Char) : normalize_text s = joinSp (wordsOf s) :=
  norm_join_aux s.length s (Nat.le_refl _)

theorem norm_eq_of_words {s t : List Char} (hw : wordsOf s = wordsOf t) :
    normalize_text s = normalize_text t := by
  rw [norm_join s, norm_join t, hw]

/-- C4: two question texts that differ only in whitespace and line-break
layout — i.e. with the same sequence of non-whitespace words — receive the
same normalized dedup key; importing both into one chapter makes the second a
duplicate-skip with no second Question row, while importing them into two
different chapters yields two independent Question rows. -/
theorem normalization_collision
    (s t : List Char) (hw : wordsOf s = wordsOf t)
    (y1 y2 c1 c2 : List (List Char))
    (db0 : DB) (chapter chapter' source : List Char) (now : Nat)
    (hs1 : isUnanswered (surviving ⟨s, y1, c1⟩) = false)
    (hs2 : isUnanswered (surviving ⟨t, y2, c2⟩) = false)
    (hnew : findQuestion db0.questions chapter (normalize_text (strip s)) = none)
    (hnew' : findQuestion db0.questions chapter' (normalize_text (strip t)) = none)
    (hcc : chapter' ≠ chapter) :
    normalize_text s = normalize_text t ∧
    ((processEntry (processEntry db0 chapter source now ⟨s, y1, c1⟩).1 chapter source now
        ⟨t, y2, c2⟩).2.duplicates_skipped = 1 ∧
     (processEntry (processEntry db0 chapter source now ⟨s, y1, c1⟩).1 chapter source now
        ⟨t, y2, c2⟩).2.inserted_questions = 0 ∧
     (processEntry (processEntry db0 chapter source now ⟨s, y1, c1⟩).1 chapter source now
        ⟨t, y2, c2⟩).1.questions =
       (processEntry db0 chapter source now ⟨s, y1, c1⟩).1.questions) ∧
    ((processEntry (processEntry db0 chapter source now ⟨s, y1, c1⟩).1 chapter' source now
        ⟨t, y2, c2⟩).2.inserted_questions = 1 ∧
     (processEntry (processEntry db0 chapter source now ⟨s, y1, c1⟩).1 chapter' source now
        ⟨t, y2, c2⟩).1.questions =
       (processEntry db0 chapter source now ⟨s, y1, c1⟩).1.questions ++
         [⟨(processEntry db0 chapter source now ⟨s, y1, c1⟩).1.nextQId, chapter', strip t,
           normalize_text (strip t), detect_type (strip t), source, now⟩]) := by
  have hkey : normalize_text s = normalize_text t := norm_eq_of_words hw
  have hkeystrip : normalize_text (strip s) = normalize_text (strip t) := by
    rw [normalize_strip, normalize_strip, hkey]
  have hq1 : (processEntry db0 chapter source now ⟨s, y1, c1⟩).1.questions =
      db0.questions ++ [⟨db0.nextQId, chapter, strip s,
        normalize_text (strip s), detect_type (strip s), source, now⟩] := by
    rw [processEntry_new db0 chapter source now ⟨s, y1, c1⟩ hs1 hnew]
    exact (insertAnswers_state _ _ _ _ _).1
  have hfind1 : findQuestion (processEntry db0 chapter source now ⟨s, y1, c1⟩).1.questions
      chapter (normalize_text (strip t)) =
      some ⟨db0.nextQId, chapter, strip s,
        normalize_text (strip s), detect_type (strip s), source, now⟩ := by
    rw [hq1, ← hkeystrip, findQuestion_append_none hnew]
    simp [findQuestion]
  have hfind2 : findQuestion (processEntry db0 chapter source now ⟨s, y1, c1⟩).1.questions
      chapter' (normalize_text (strip t)) = none := by
    rw [hq1, findQuestion_append_none hnew']
    have : (chapter == chapter') = false := by
      rw [beq_eq_false_iff_ne]
      exact fun h => hcc h.symm
    simp [findQuestion, this]
  refine ⟨hkey, ?_, ?_⟩
  · obtain ⟨hA, hB, hC, -⟩ :=
      duplicate_immutable (processEntry db0 chapter source now ⟨s, y1, c1⟩).1
        chapter source now ⟨t, y2, c2⟩ _ hs2 hfind1
    exact ⟨hC, hB, hA⟩
  · constructor
    · rw [processEntry_new _ chapter' source now ⟨t, y2, c2⟩ hs2 hfind2]
    · rw [processEntry_new _ chapter' source now ⟨t, y2, c2⟩ hs2 hfind2]
      exact (insertAnswers_state _ _ _ _ _).1

/-- C4 witness: `"a  b"` and `"a\nb"` differ only in whitespace layout. -/
theorem normalization_collision_witness :
    (wordsOf "a  b".data = wordsOf "a\nb".data ∧
     isUnanswered (surviving ⟨"a  b".data, [], ["A".data]⟩) = false ∧
     isUnanswered (surviving ⟨"a\nb".data, [], ["A".data]⟩) = false ∧
     findQuestion emptyDB.questions "ch1".data
       (normalize_text (strip "a  b".data)) = none ∧
     findQuestion emptyDB.questions "ch2".data
       (normalize_text (strip "a\nb".data)) = none ∧
     "ch2".data ≠ "ch1".data) ∧
    (normalize_text "a  b".data = normalize_text "a\nb".data ∧
     ((processEntry (processEntry emptyDB "ch1".data "s".data 0
         ⟨"a  b".data, [], ["A".data]⟩).1 "ch1".data "s".data 0
         ⟨"a\nb".data, [], ["A".data]⟩).2.duplicates_skipped = 1 ∧
      (processEntry (processEntry emptyDB "ch1".data "s".data 0
         ⟨"a  b".data, [], ["A".data]⟩).1 "ch1".data "s".data 0
         ⟨"a\nb".data, [], ["A".data]⟩).2.inserted_questions = 0 ∧
      (processEntry (processEntry emptyDB "ch1".data "s".data 0
         ⟨"a  b".data, [], ["A".data]⟩).1 "ch1".data "s".data 0
         ⟨"a\nb".data, [], ["A".data]⟩).1.questions =
        (processEntry emptyDB "ch1".data "s".data 0
         ⟨"a  b".data, [], ["A".data]⟩).1.questions) ∧
     ((processEntry (processEntry emptyDB "ch1".data "s".data 0
         ⟨"a  b".data, [], ["A".data]⟩).1 "ch2".data "s".data 0
         ⟨"a\nb".data, [], ["A".data]⟩).2.inserted_questions = 1 ∧
      (processEntry (processEntry emptyDB "ch1".data "s".data 0
         ⟨"a  b".data, [], ["A".data]⟩).1 "ch2".data "s".data 0
         ⟨"a\nb".data, [], ["A".data]⟩).1.questions =
        (processEntry emptyDB "ch1".data "s".data 0
         ⟨"a  b".data, [], ["A".data]⟩).1.questions ++
          [⟨(processEntry emptyDB "ch1".data "s".data 0
             ⟨"a  b".data, [], ["A".data]⟩).1.nextQId, "ch2".data, strip "a\nb".data,
            normalize_text (strip "a\nb".data), detect_type (strip "a\nb".data),
            "s".data, 0⟩])) :=
  ⟨⟨by decide, by decide, by decide, by decide, by decide, by decide⟩,
   normalization_collision "a  b".data "a\nb".data (by decide) [] [] ["A".data]
     ["A".data] emptyDB "ch1".data "ch2".data "s".data 0 (by decide) (by decide)
     (by decide) (by decide) (by decide)⟩
